import Mathlib

/-!
Verification of the debounced GPIO event detector and the ring controller of
`phonehack/__main__.py`, as a shallow embedding in Lean.

Conventions of the embedding:

- A logic level is a `Bool`: `true` is HIGH, `false` is LOW.
- Durations in seconds are exact rationals; the Python floats
  0.2, 0.8, 0.05 and 1.6 are the rationals 1/5, 4/5, 1/20 and 8/5.
- The detector coroutine `_event_detector` is an unbounded `while True` loop,
  so it is embedded with an explicit fuel argument; `none` means the loop did
  not resolve within the supplied fuel.
- `GPIO.input` is modelled by a stream of sampled levels.  Two renderings of
  the very same loop are given: `event_detector`, indexed by the read count
  (the i-th loop iteration performs the i-th read), and
  `event_detector_timed`, where the pin is a function of simulated time and
  each branch advances the clock exactly as the code does: the mismatch
  branch awaits one poll interval, the match branch awaits nothing.
- `ring_once` and `ring_forever` are embedded as the timed schedule of
  `GPIO.output` writes they perform when run uninterrupted: each write is a
  pair of its simulated time and the level written.
- `ring_until_answered` runs `ring_forever` as a task concurrently with the
  answered watcher; its embedding `ring_until_answered` is parameterised by
  the simulated time `T` at which the watcher resolves, and by an optional
  index of a write attempt at which `GPIO.output` raises a hardware error.
-/

namespace Phonehack

/-- `DEFAULT_GPIO_EVENT_POLL_SECS = 0.2` from the source. -/
def DEFAULT_GPIO_EVENT_POLL_SECS : ℚ := 1/5

/-- `DEFAULT_GPIO_EVENT_DEBOUNCE_SECS = 0.8` from the source. -/
def DEFAULT_GPIO_EVENT_DEBOUNCE_SECS : ℚ := 4/5

/-- `RING_TOGGLE_INTERVAL_SECS = 0.05` from the source. -/
def RING_TOGGLE_INTERVAL_SECS : ℚ := 1/20

/-- `RING_DURATION_SECS = 1.6` from the source. -/
def RING_DURATION_SECS : ℚ := 8/5

/--
The polling loop of `_event_detector` (the coroutine produced by
`get_gpio_event_detector`), indexed by read count.  State of the loop:
remaining `fuel`, the local variable `debounce_timer_secs`, and the index `i`
of the next `GPIO.input` read.  Faithful to the source:

- read the pin; if it differs from `event`, set the timer to `0`, await one
  poll interval, and loop (the next read is read `i + 1`);
- otherwise, if the timer is below `debounce_secs`, add one poll interval to
  the timer and loop at once with no await (the next read is read `i + 1`);
- otherwise, call `GPIO.remove_event_detect` unless `reusable`, and return
  `event`.

The first component of the result is the returned value together with the
index of the read at which the loop returned (`none` if fuel ran out before
resolution); the second component is the list of `GPIO.remove_event_detect`
calls made by this run, each recorded as the read index at which it
happened.
-/
def event_detector (poll_interval_secs debounce_secs : ℚ) (event : Bool)
    (reusable : Bool) (sample : ℕ → Bool) :
    ℕ → ℚ → ℕ → Option (ℕ × Bool) × List ℕ
  | 0, _, _ => (none, [])
  | fuel + 1, debounce_timer_secs, i =>
    if sample i ≠ event then
      event_detector poll_interval_secs debounce_secs event reusable sample
        fuel 0 (i + 1)
    else if debounce_timer_secs < debounce_secs then
      event_detector poll_interval_secs debounce_secs event reusable sample
        fuel (debounce_timer_secs + poll_interval_secs) (i + 1)
    else
      (some (i, event), if reusable then [] else [i])

/--
The very same `_event_detector` loop with simulated time made explicit:
`pin` is the level of the input line as a function of time, and `t` is the
current simulated time.  The mismatch branch performs
`await asyncio.sleep(poll_interval_secs)`, so it advances `t` by one poll
interval; the match branch has no await at all, so the loop re-reads the pin
at the very same instant.  Resolution returns the time at which the loop
returned together with the returned level.
-/
def event_detector_timed (poll_interval_secs debounce_secs : ℚ) (event : Bool)
    (pin : ℚ → Bool) : ℕ → ℚ → ℚ → Option (ℚ × Bool)
  | 0, _, _ => none
  | fuel + 1, debounce_timer_secs, t =>
    if pin t ≠ event then
      event_detector_timed poll_interval_secs debounce_secs event pin
        fuel 0 (t + poll_interval_secs)
    else if debounce_timer_secs < debounce_secs then
      event_detector_timed poll_interval_secs debounce_secs event pin
        fuel (debounce_timer_secs + poll_interval_secs) t
    else
      some (t, event)

/--
The `while` loop of `ring_once`, started at `ring_timer_secs = timer` and
simulated time `t`.  One iteration of the source loop writes HIGH, adds the
toggle interval to the timer, sleeps one toggle interval, writes LOW, adds
the toggle interval again, and sleeps again; the loop re-checks
`ring_timer_secs < RING_DURATION_SECS` only between iterations.  The result
is the list of timed writes together with the simulated time at which the
coroutine returns (the end of the sleep that follows the last write).
-/
def ring_once (timer t : ℚ) : List (ℚ × Bool) × ℚ :=
  if h : timer < RING_DURATION_SECS then
    let rest := ring_once (timer + RING_TOGGLE_INTERVAL_SECS + RING_TOGGLE_INTERVAL_SECS)
      (t + RING_TOGGLE_INTERVAL_SECS + RING_TOGGLE_INTERVAL_SECS)
    ((t, true) :: (t + RING_TOGGLE_INTERVAL_SECS, false) :: rest.1, rest.2)
  else ([], t)
termination_by (⌈(RING_DURATION_SECS - timer) * 10⌉₊)
decreasing_by
  have hx : (0 : ℚ) < (RING_DURATION_SECS - timer) * 10 := by
    simp only [RING_DURATION_SECS] at h ⊢
    nlinarith
  have heq : (RING_DURATION_SECS - (timer + RING_TOGGLE_INTERVAL_SECS + RING_TOGGLE_INTERVAL_SECS)) * 10
      = (RING_DURATION_SECS - timer) * 10 - 1 := by
    simp only [RING_TOGGLE_INTERVAL_SECS]
    ring
  rw [heq]
  have h1 : 0 < ⌈(RING_DURATION_SECS - timer) * 10⌉₊ := Nat.ceil_pos.mpr hx
  have h2 : ⌈(RING_DURATION_SECS - timer) * 10 - 1⌉₊ ≤ ⌈(RING_DURATION_SECS - timer) * 10⌉₊ - 1 := by
    rw [Nat.ceil_le]
    push_cast [Nat.cast_sub (by omega : 1 ≤ ⌈(RING_DURATION_SECS - timer) * 10⌉₊)]
    have := Nat.le_ceil ((RING_DURATION_SECS - timer) * 10)
    linarith
  omega

/--
The `while True` loop of `ring_forever`, observed for `c` cycles and started
at simulated time `t`: each cycle awaits `ring_once` (a burst started with
timer `0`) and then sleeps `RING_DURATION_SECS`.  The result is the timed
write schedule of the first `c` cycles of an uninterrupted session.
-/
def ring_forever : ℕ → ℚ → List (ℚ × Bool)
  | 0, _ => []
  | c + 1, t =>
    let burst := ring_once 0 t
    burst.1 ++ ring_forever c (burst.2 + RING_DURATION_SECS)

/-- How the burst-toggle task of a ring session ended within the observed
window: still running when the observed schedule was exhausted, killed by
the cancellation requested when the watcher resolved, or killed by a
`GPIO.output` hardware error raised at the given simulated time. -/
inductive ToggleOutcome
  | completed
  | cancelled
  | writeFailed (t : ℚ)

/-- What `ring_until_answered` reports to its caller: a normal return after
`await is_answered_task`, or a raised exception. -/
inductive SessionResult
  | answered
  | raised

/-- Observable trace of one `ring_until_answered` session. -/
structure SessionTrace where
  writes : List (ℚ × Bool)
  toggleOutcome : ToggleOutcome
  reportedAt : ℚ
  result : SessionResult
  watcherCancelled : Bool

/--
Execution of the burst-toggle task against its uninterrupted write schedule
`ws`, under the asyncio semantics of `ring_until_answered`: a scheduled
write at time `w.1` is performed iff the task wakes at that time, i.e. iff
`w.1 ≤ T`, where `T` is the time at which the watcher resolves and
`on_phone_answered` calls `ring_forever_task.cancel()` (a cancel requested
at `T` interrupts the sleep that would end strictly after `T`; scheduled
callbacks at exactly `T` run before the cancel callback).  `failAt` is the
index of the write attempt at which `GPIO.output` raises; the exception
kills the task at that point, performing no write and no cleanup.  `k` is
the index of the next write attempt.
-/
def run_writes (T : ℚ) (failAt : Option ℕ) : List (ℚ × Bool) → ℕ → List (ℚ × Bool) × ToggleOutcome
  | [], _ => ([], .completed)
  | w :: ws, k =>
    if w.1 ≤ T then
      if failAt = some k then ([], .writeFailed w.1)
      else
        let rest := run_writes T failAt ws (k + 1)
        (w :: rest.1, rest.2)
    else ([], .cancelled)

/--
`ring_until_answered`, observed for `c` cycles of the toggle schedule, with
the answered watcher resolving at simulated time `T` and an optional failing
write attempt.  Faithful to the source:

- the burst-toggle task runs `ring_forever` from time `0` and is cancelled
  via the `on_phone_answered` done callback when the watcher resolves
  (`run_writes`);
- `ring_until_answered` itself only does `await is_answered_task`, so it
  returns, normally, at time `T`: the cancel is requested before the return
  (the done callbacks run in registration order) but nothing awaits the
  cancelled task, nothing forces the ringer pin LOW afterwards, an exception
  inside the toggle task is never retrieved, and nothing ever cancels the
  watcher task.
-/
def ring_until_answered (T : ℚ) (failAt : Option ℕ) (c : ℕ) : SessionTrace :=
  let tog := run_writes T failAt (ring_forever c 0) 0
  { writes := tog.1
    toggleOutcome := tog.2
    reportedAt := T
    result := .answered
    watcherCancelled := false }

/-! ### Helper lemmas -/

lemma flatMap_congr_left {α β : Type} {l : List α} {f g : α → List β}
    (h : ∀ a ∈ l, f a = g a) : l.flatMap f = l.flatMap g := by
  induction l with
  | nil => rfl
  | cons a l ih =>
    simp only [List.flatMap_cons]
    rw [h a (by simp), ih (fun b hb => h b (by simp [hb]))]

lemma ring_once_stop {timer t : ℚ} (h : ¬ timer < RING_DURATION_SECS) :
    ring_once timer t = ([], t) := by
  rw [ring_once]
  simp [h]

lemma ring_once_go {timer t : ℚ} (h : timer < RING_DURATION_SECS) :
    ring_once timer t =
      ((t, true) :: (t + RING_TOGGLE_INTERVAL_SECS, false) ::
        (ring_once (timer + RING_TOGGLE_INTERVAL_SECS + RING_TOGGLE_INTERVAL_SECS)
          (t + RING_TOGGLE_INTERVAL_SECS + RING_TOGGLE_INTERVAL_SECS)).1,
       (ring_once (timer + RING_TOGGLE_INTERVAL_SECS + RING_TOGGLE_INTERVAL_SECS)
          (t + RING_TOGGLE_INTERVAL_SECS + RING_TOGGLE_INTERVAL_SECS)).2) := by
  rw [ring_once]
  simp [h]

lemma ring_once_closed : ∀ q : ℕ, q ≤ 16 → ∀ t : ℚ,
    ring_once (((16 - q : ℕ) : ℚ) * (1/10)) t
      = ((List.range (2 * q)).map (fun j : ℕ => (t + (j : ℚ) * (1/20), decide (j % 2 = 0))),
         t + (q : ℚ) * (1/10)) := by
  intro q
  induction q with
  | zero =>
    intro _ t
    rw [ring_once_stop (by simp [RING_DURATION_SECS]; norm_num)]
    simp
  | succ q ih =>
    intro hq t
    have hq' : q ≤ 16 := by omega
    have hc1 : (16 - (q + 1) : ℕ) = 15 - q := by omega
    have hcast : ((16 - (q + 1) : ℕ) : ℚ) = 15 - (q : ℚ) := by
      rw [hc1, Nat.cast_sub (by omega : q ≤ 15)]
      norm_num
    have hguard : ((16 - (q + 1) : ℕ) : ℚ) * (1/10) < RING_DURATION_SECS := by
      rw [hcast]
      simp only [RING_DURATION_SECS]
      have : (0 : ℚ) ≤ (q : ℚ) := by positivity
      linarith
    rw [ring_once_go hguard]
    have harg : ((16 - (q + 1) : ℕ) : ℚ) * (1/10) + RING_TOGGLE_INTERVAL_SECS + RING_TOGGLE_INTERVAL_SECS
        = ((16 - q : ℕ) : ℚ) * (1/10) := by
      rw [hcast, Nat.cast_sub (by omega : q ≤ 16)]
      simp only [RING_TOGGLE_INTERVAL_SECS]
      push_cast
      ring
    rw [harg, ih hq' (t + RING_TOGGLE_INTERVAL_SECS + RING_TOGGLE_INTERVAL_SECS)]
    have hrange : List.range (2 * (q + 1)) = 0 :: 1 :: (List.range (2 * q)).map (fun j => j + 2) := by
      have h1 : 2 * (q + 1) = (2 * q + 1) + 1 := by ring
      rw [h1, List.range_succ_eq_map, List.range_succ_eq_map, List.map_cons, List.map_map]
      rfl
    rw [hrange]
    refine Prod.ext ?_ ?_
    · simp only [List.map_cons, List.map_map, List.cons.injEq]
      refine ⟨by norm_num, by norm_num [RING_TOGGLE_INTERVAL_SECS], ?_⟩
      refine List.map_congr_left ?_
      intro j hj
      simp only [Function.comp, RING_TOGGLE_INTERVAL_SECS, Prod.mk.injEq]
      constructor
      · push_cast
        ring
      · simp [Nat.add_mod_right]
    · simp only [RING_TOGGLE_INTERVAL_SECS]
      push_cast
      ring

lemma ring_once_zero (t : ℚ) :
    ring_once 0 t
      = ((List.range 32).map (fun j : ℕ => (t + (j : ℚ) * (1/20), decide (j % 2 = 0))),
         t + 8/5) := by
  have h := ring_once_closed 16 (le_refl 16) t
  norm_num at h
  convert h using 2

lemma ring_forever_closed : ∀ (c : ℕ) (t : ℚ),
    ring_forever c t = (List.range c).flatMap (fun i : ℕ =>
      (List.range 32).map (fun j : ℕ =>
        (t + (16/5) * (i : ℚ) + (j : ℚ) * (1/20), decide (j % 2 = 0)))) := by
  intro c
  induction c with
  | zero => intro t; simp [ring_forever]
  | succ c ih =>
    intro t
    have hrange : List.range (c + 1) = 0 :: (List.range c).map (fun i => i + 1) := by
      rw [List.range_succ_eq_map]
    rw [hrange]
    simp only [ring_forever, ring_once_zero, List.flatMap_cons, RING_DURATION_SECS]
    rw [ih (t + 8/5 + 8/5)]
    congr 1
    · apply List.map_congr_left
      intro j _
      norm_num
    · rw [List.flatMap_map]
      apply flatMap_congr_left
      intro i _
      apply List.map_congr_left
      intro j _
      simp only [Prod.mk.injEq]
      refine ⟨by push_cast; ring, trivial⟩

lemma ring_forever_time_lb (c : ℕ) (t : ℚ) : ∀ w ∈ ring_forever c t, t ≤ w.1 := by
  intro w hw
  rw [ring_forever_closed] at hw
  simp only [List.mem_flatMap, List.mem_map, List.mem_range] at hw
  obtain ⟨i, hi, j, hj, rfl⟩ := hw
  have h1 : (0:ℚ) ≤ 16/5 * (i:ℚ) := by positivity
  have h2 : (0:ℚ) ≤ (j:ℚ) * (1/20) := by positivity
  simp only
  linarith

lemma ring_forever_sorted (c : ℕ) (t : ℚ) :
    (ring_forever c t).Pairwise (fun a b => a.1 ≤ b.1) := by
  induction c generalizing t with
  | zero => simp [ring_forever]
  | succ c ih =>
    simp only [ring_forever]
    rw [List.pairwise_append]
    refine ⟨?_, ih _, ?_⟩
    · rw [ring_once_zero]
      rw [List.pairwise_map]
      refine (List.pairwise_lt_range 32).imp ?_
      intro a b hab
      simp only
      have : (a:ℚ) ≤ (b:ℚ) := by exact_mod_cast Nat.le_of_lt hab
      nlinarith
    · intro a ha b hb
      rw [ring_once_zero] at ha hb
      simp only [List.mem_map, List.mem_range] at ha
      obtain ⟨j, hj, rfl⟩ := ha
      have hb' := ring_forever_time_lb c _ b hb
      simp only [RING_DURATION_SECS] at hb'
      have hj' : (j:ℚ) ≤ 31 := by exact_mod_cast Nat.le_of_lt_succ hj
      simp only
      nlinarith

lemma run_writes_cons_exec {T : ℚ} {failAt : Option ℕ} {w : ℚ × Bool} {ws : List (ℚ × Bool)}
    {k : ℕ} (hw : w.1 ≤ T) (hf : failAt ≠ some k) :
    run_writes T failAt (w :: ws) k
      = (w :: (run_writes T failAt ws (k + 1)).1, (run_writes T failAt ws (k + 1)).2) := by
  simp [run_writes, hw, hf]

lemma run_writes_cons_fail {T : ℚ} {w : ℚ × Bool} {ws : List (ℚ × Bool)} {k : ℕ}
    (hw : w.1 ≤ T) :
    run_writes T (some k) (w :: ws) k = ([], .writeFailed w.1) := by
  simp [run_writes, hw]

lemma run_writes_cons_cancel {T : ℚ} {failAt : Option ℕ} {w : ℚ × Bool} {ws : List (ℚ × Bool)}
    {k : ℕ} (hw : ¬ w.1 ≤ T) :
    run_writes T failAt (w :: ws) k = ([], .cancelled) := by
  simp [run_writes, hw]

lemma run_writes_none (T : ℚ) :
    ∀ (ws : List (ℚ × Bool)) (k : ℕ), ws.Pairwise (fun a b => a.1 ≤ b.1) →
      (run_writes T none ws k).1 = ws.filter (fun w => w.1 ≤ T) := by
  intro ws
  induction ws with
  | nil => intro k _; simp [run_writes]
  | cons w ws ih =>
    intro k hp
    rw [List.pairwise_cons] at hp
    obtain ⟨hw, hp⟩ := hp
    by_cases h : w.1 ≤ T
    · rw [run_writes_cons_exec h (by simp)]
      rw [List.filter_cons_of_pos (by simpa using h)]
      simp only [List.cons.injEq, true_and]
      exact ih (k + 1) hp
    · rw [run_writes_cons_cancel h]
      rw [List.filter_cons_of_neg (by simpa using h)]
      rw [List.filter_eq_nil_iff.mpr]
      intro a ha
      have := hw a ha
      simp only [decide_eq_true_eq]
      intro hc
      exact h (le_trans this hc)

lemma run_writes_some (T : ℚ) :
    ∀ (ws : List (ℚ × Bool)) (kf k : ℕ), ws.Pairwise (fun a b => a.1 ≤ b.1) → k ≤ kf →
      (run_writes T (some kf) ws k).1 = (ws.filter (fun w => w.1 ≤ T)).take (kf - k) := by
  intro ws
  induction ws with
  | nil => intro kf k _ _; simp [run_writes]
  | cons w ws ih =>
    intro kf k hp hk
    rw [List.pairwise_cons] at hp
    obtain ⟨hw, hp⟩ := hp
    by_cases h : w.1 ≤ T
    · by_cases hkk : k = kf
      · subst hkk
        rw [run_writes_cons_fail h]
        simp [Nat.sub_self]
      · rw [run_writes_cons_exec h (by simp; omega)]
        rw [List.filter_cons_of_pos (by simpa using h)]
        have hsub : kf - k = (kf - (k + 1)) + 1 := by omega
        rw [hsub, List.take_succ_cons]
        simp only [List.cons.injEq, true_and]
        exact ih kf (k + 1) hp (by omega)
    · rw [run_writes_cons_cancel h]
      rw [List.filter_cons_of_neg (by simpa using h)]
      rw [List.filter_eq_nil_iff.mpr]
      · simp
      · intro a ha
        have := hw a ha
        simp only [decide_eq_true_eq]
        intro hc
        exact h (le_trans this hc)

lemma event_detector_shift (p d : ℚ) (e r : Bool) :
    ∀ (fuel : ℕ) (s : ℕ → Bool) (timer : ℚ) (j : ℕ),
      event_detector p d e r s fuel timer j
        = (((event_detector p d e r (fun k => s (k + j)) fuel timer 0).1).map
             (fun q => (q.1 + j, q.2)),
           ((event_detector p d e r (fun k => s (k + j)) fuel timer 0).2).map
             (fun q => q + j)) := by
  intro fuel
  induction fuel with
  | zero => intro s timer j; simp [event_detector]
  | succ fuel ih =>
    intro s timer j
    have hs0 : (fun k => s (k + j)) 0 = s j := by simp
    by_cases hm : s j = e
    · by_cases ht : timer < d
      · have hL : event_detector p d e r s (fuel + 1) timer j
            = event_detector p d e r s fuel (timer + p) (j + 1) := by
          simp [event_detector, hm, ht]
        have hR : event_detector p d e r (fun k => s (k + j)) (fuel + 1) timer 0
            = event_detector p d e r (fun k => s (k + j)) fuel (timer + p) 1 := by
          simp [event_detector, hs0, hm, ht]
        rw [hL, hR, ih s (timer + p) (j + 1), ih (fun k => s (k + j)) (timer + p) 1]
        have hcomp : (fun k => s (k + 1 + j)) = (fun k => s (k + (j + 1))) := by
          funext k
          congr 1
          omega
        rw [hcomp]
        refine Prod.ext ?_ ?_
        · rw [Option.map_map]
          have hfc : ((fun q : ℕ × Bool => (q.1 + j, q.2)) ∘ (fun q : ℕ × Bool => (q.1 + 1, q.2)))
              = (fun q : ℕ × Bool => (q.1 + (j + 1), q.2)) := by
            funext q
            simp [Function.comp]
            omega
          rw [hfc]
        · simp only [List.map_map]
          apply List.map_congr_left
          intro q _
          simp only [Function.comp]
          omega
      · have hL : event_detector p d e r s (fuel + 1) timer j
            = (some (j, e), if r then [] else [j]) := by
          simp [event_detector, hm, ht]
        have hR : event_detector p d e r (fun k => s (k + j)) (fuel + 1) timer 0
            = (some (0, e), if r then [] else [0]) := by
          simp [event_detector, hs0, hm, ht]
        rw [hL, hR]
        cases r <;> simp
    · have hL : event_detector p d e r s (fuel + 1) timer j
          = event_detector p d e r s fuel 0 (j + 1) := by
        simp [event_detector, hm]
      have hR : event_detector p d e r (fun k => s (k + j)) (fuel + 1) timer 0
          = event_detector p d e r (fun k => s (k + j)) fuel 0 1 := by
        simp [event_detector, hs0, hm]
      rw [hL, hR, ih s 0 (j + 1), ih (fun k => s (k + j)) 0 1]
      have hcomp : (fun k => s (k + 1 + j)) = (fun k => s (k + (j + 1))) := by
        funext k
        congr 1
        omega
      rw [hcomp]
      refine Prod.ext ?_ ?_
      · rw [Option.map_map]
        have hfc : ((fun q : ℕ × Bool => (q.1 + j, q.2)) ∘ (fun q : ℕ × Bool => (q.1 + 1, q.2)))
            = (fun q : ℕ × Bool => (q.1 + (j + 1), q.2)) := by
          funext q
          simp [Function.comp]
          omega
        rw [hfc]
      · simp only [List.map_map]
        apply List.map_congr_left
        intro q _
        simp only [Function.comp]
        omega

lemma event_detector_window (p d : ℚ) (e r : Bool) (s : ℕ → Bool) (hp : 0 < p) :
    ∀ (fuel : ℕ) (timer : ℚ) (j c : ℕ), timer = (c : ℚ) * p → c ≤ j →
      (∀ k, j - c ≤ k → k < j → s k = e) →
      ∀ i v, (event_detector p d e r s fuel timer j).1 = some (i, v) →
        v = e ∧ ⌈d / p⌉₊ ≤ i ∧ ∀ k, i - ⌈d / p⌉₊ ≤ k → k ≤ i → s k = e := by
  intro fuel
  induction fuel with
  | zero => intro timer j c _ _ _ i v hres; simp [event_detector] at hres
  | succ fuel ih =>
    intro timer j c htimer hcj hwin i v hres
    by_cases hm : s j = e
    · by_cases ht : timer < d
      · rw [show event_detector p d e r s (fuel + 1) timer j
            = event_detector p d e r s fuel (timer + p) (j + 1) from by
          simp [event_detector, hm, ht]] at hres
        refine ih (timer + p) (j + 1) (c + 1) ?_ (by omega) ?_ i v hres
        · rw [htimer]
          push_cast
          ring
        · intro k hk1 hk2
          rcases Nat.lt_or_ge k j with hkj | hkj
          · exact hwin k (by omega) hkj
          · have : k = j := by omega
            subst this
            exact hm
      · rw [show event_detector p d e r s (fuel + 1) timer j
            = (some (j, e), if r then [] else [j]) from by
          simp [event_detector, hm, ht]] at hres
        simp only [Option.some.injEq, Prod.mk.injEq] at hres
        obtain ⟨rfl, rfl⟩ := hres
        have hdc : d ≤ (c : ℚ) * p := by
          rw [htimer] at ht
          exact le_of_not_lt ht
        have hmc : ⌈d / p⌉₊ ≤ c := by
          rw [Nat.ceil_le]
          rw [div_le_iff₀ hp]
          exact hdc
        refine ⟨rfl, le_trans hmc hcj, ?_⟩
        intro k hk1 hk2
        rcases Nat.lt_or_ge k j with hki | hki
        · exact hwin k (by omega) hki
        · have : k = j := by omega
          subst this
          exact hm
    · rw [show event_detector p d e r s (fuel + 1) timer j
          = event_detector p d e r s fuel 0 (j + 1) from by
        simp [event_detector, hm]] at hres
      refine ih 0 (j + 1) 0 (by norm_num) (by omega) (by omega) i v hres

lemma event_detector_const (p d : ℚ) (e r : Bool) (hp : 0 < p) :
    ∀ (fuel j : ℕ), j ≤ ⌈d / p⌉₊ → ⌈d / p⌉₊ - j < fuel →
      (event_detector p d e r (fun _ => e) fuel ((j : ℚ) * p) j).1
        = some (⌈d / p⌉₊, e) := by
  intro fuel
  induction fuel with
  | zero => intro j _ h; omega
  | succ fuel ih =>
    intro j hj hfuel
    rcases eq_or_lt_of_le hj with hjm | hjm
    · have hd : d ≤ (j : ℚ) * p := by
        rw [← div_le_iff₀ hp]
        calc d / p ≤ (⌈d / p⌉₊ : ℚ) := Nat.le_ceil _
        _ = (j : ℚ) := by rw [hjm]
      have hnt : ¬ ((j : ℚ) * p < d) := not_lt.mpr hd
      rw [show event_detector p d e r (fun _ => e) (fuel + 1) ((j : ℚ) * p) j
          = (some (j, e), if r then [] else [j]) from by
        simp [event_detector, hnt]]
      simp [hjm]
    · have hlt : (j : ℚ) * p < d := by
        have h1 : (j : ℚ) < d / p := Nat.lt_ceil.mp hjm
        have h2 : (j : ℚ) * p < (d / p) * p := mul_lt_mul_of_pos_right h1 hp
        rwa [div_mul_cancel₀ d (ne_of_gt hp)] at h2
      rw [show event_detector p d e r (fun _ => e) (fuel + 1) ((j : ℚ) * p) j
          = event_detector p d e r (fun _ => e) fuel ((j : ℚ) * p + p) (j + 1) from by
        simp [event_detector, hlt]]
      rw [show (j : ℚ) * p + p = ((j + 1 : ℕ) : ℚ) * p from by push_cast; ring]
      exact ih (j + 1) (by omega) (by omega)

lemma event_detector_first_match (p : ℚ) (e r : Bool) (s : ℕ → Bool) :
    ∀ (fuel i j : ℕ), i ≤ j → (∀ k, i ≤ k → k < j → s k ≠ e) → s j = e → j - i < fuel →
      (event_detector p 0 e r s fuel 0 i).1 = some (j, e) := by
  intro fuel
  induction fuel with
  | zero => intro i j _ _ _ h; omega
  | succ fuel ih =>
    intro i j hij hpre hj hfuel
    rcases eq_or_lt_of_le hij with heq | hlt
    · subst heq
      rw [show event_detector p 0 e r s (fuel + 1) 0 i = (some (i, e), if r then [] else [i]) from by
        simp [event_detector, hj]]
    · have hne : s i ≠ e := hpre i (le_refl i) hlt
      rw [show event_detector p 0 e r s (fuel + 1) 0 i
          = event_detector p 0 e r s fuel 0 (i + 1) from by
        simp [event_detector, hne]]
      exact ih (i + 1) j (by omega) (fun k hk1 hk2 => hpre k (by omega) hk2) hj (by omega)

lemma event_detector_dereg_true (p d : ℚ) (e : Bool) (s : ℕ → Bool) :
    ∀ (fuel : ℕ) (timer : ℚ) (i : ℕ),
      (event_detector p d e true s fuel timer i).2 = [] := by
  intro fuel
  induction fuel with
  | zero => intro timer i; simp [event_detector]
  | succ fuel ih =>
    intro timer i
    by_cases hm : s i = e
    · by_cases ht : timer < d
      · rw [show event_detector p d e true s (fuel + 1) timer i
            = event_detector p d e true s fuel (timer + p) (i + 1) from by
          simp [event_detector, hm, ht]]
        exact ih (timer + p) (i + 1)
      · rw [show event_detector p d e true s (fuel + 1) timer i
            = (some (i, e), []) from by simp [event_detector, hm, ht]]
    · rw [show event_detector p d e true s (fuel + 1) timer i
          = event_detector p d e true s fuel 0 (i + 1) from by
        simp [event_detector, hm]]
      exact ih 0 (i + 1)

lemma event_detector_dereg_false (p d : ℚ) (e : Bool) (s : ℕ → Bool) :
    ∀ (fuel : ℕ) (timer : ℚ) (j : ℕ),
      ((event_detector p d e false s fuel timer j).1 = none →
        (event_detector p d e false s fuel timer j).2 = [])
      ∧ (∀ i v, (event_detector p d e false s fuel timer j).1 = some (i, v) →
        (event_detector p d e false s fuel timer j).2 = [i]) := by
  intro fuel
  induction fuel with
  | zero => intro timer j; simp [event_detector]
  | succ fuel ih =>
    intro timer j
    by_cases hm : s j = e
    · by_cases ht : timer < d
      · rw [show event_detector p d e false s (fuel + 1) timer j
            = event_detector p d e false s fuel (timer + p) (j + 1) from by
          simp [event_detector, hm, ht]]
        exact ih (timer + p) (j + 1)
      · rw [show event_detector p d e false s (fuel + 1) timer j
            = (some (j, e), [j]) from by simp [event_detector, hm, ht]]
        constructor
        · intro hc
          simp at hc
        · intro i v hiv
          simp only [Option.some.injEq, Prod.mk.injEq] at hiv
          obtain ⟨rfl, rfl⟩ := hiv
          rfl
    · rw [show event_detector p d e false s (fuel + 1) timer j
          = event_detector p d e false s fuel 0 (j + 1) from by
        simp [event_detector, hm]]
      exact ih 0 (j + 1)

/-! ### Claims -/

/--
C1 (code bug in the source): the claim states that while accumulated hold
time is below the debounce duration, each matching sample is followed by a
wait of one poll interval before re-sampling, and that the detector resolves
no earlier than the moment the pin has been held for the debounce duration.
The match branch of the loop has no await, so the debounce timer accrues
with no simulated time passing: with the default poll interval 0.2 s and
debounce 0.8 s, a pin that is HIGH only at the single instant t = 0 (and
LOW at every later time, in particular at the next poll instant 0.2 s)
makes the detector resolve at time 0 with value HIGH, although the target
level was never held for any positive duration.
-/
theorem C1_match_branch_never_waits :
    event_detector_timed DEFAULT_GPIO_EVENT_POLL_SECS DEFAULT_GPIO_EVENT_DEBOUNCE_SECS
        true (fun t => decide (t = 0)) 6 0 0 = some (0, true)
    ∧ (fun t : ℚ => decide (t = 0)) DEFAULT_GPIO_EVENT_POLL_SECS = false := by
  constructor
  · norm_num [event_detector_timed, DEFAULT_GPIO_EVENT_POLL_SECS,
      DEFAULT_GPIO_EVENT_DEBOUNCE_SECS]
  · norm_num [DEFAULT_GPIO_EVENT_POLL_SECS]

/--
C2 counterexample: the claim states that whenever the watcher resolves, the
last write to the ringer pin before session teardown is LOW, regardless of
where inside a burst or pause the watcher resolves.  With the watcher
resolving at T = 0.01 s, inside the very first HIGH half-cycle of the first
burst, the only write performed by the session is the HIGH write at t = 0,
so the last write before teardown is HIGH and the ringer pin is left HIGH.
-/
theorem C2_counterexample_pin_left_high :
    ((ring_until_answered (1/100) none 1).writes.map Prod.snd).getLast? = some true := by
  have hw : (ring_until_answered (1/100) none 1).writes
      = (ring_forever 1 0).filter (fun w => w.1 ≤ 1/100) :=
    run_writes_none (1/100) (ring_forever 1 0) 0 (ring_forever_sorted 1 0)
  rw [hw, ring_forever_closed]
  norm_num [List.range_succ]

/--
C2 as amended: when the answered watcher resolves at time T, the cancel of
the burst-toggle task is requested, via the done callback, before
ring_until_answered returns, but it only takes effect at the next resumption
of the toggle task, after completion is reported; the session therefore
performs exactly the writes of the uninterrupted schedule whose times are at
most T, no write occurs after teardown, and the level of the last write
before teardown is whatever the schedule last wrote at or before T, which is
HIGH whenever T falls inside a HIGH half-cycle of a burst; nothing forces
the pin LOW.  Completion is reported at T.
-/
theorem C2_amended_cancellation_teardown (T : ℚ) (c : ℕ) :
    (ring_until_answered T none c).writes = (ring_forever c 0).filter (fun w => w.1 ≤ T)
    ∧ (ring_until_answered T none c).reportedAt = T :=
  ⟨run_writes_none T (ring_forever c 0) 0 (ring_forever_sorted c 0), rfl⟩

/--
C3 counterexample: the claim states that a failing ringer write makes the
error propagate to the session owner, the session be torn down with the
output pin forced LOW and the watcher cancelled.  With the second write
attempt (index 1, the LOW write at t = 0.05 s) raising a hardware error and
the watcher resolving at T = 1 s, the session owner still observes a normal
answered completion, the only write ever performed is the HIGH write at
t = 0 (so the pin is left HIGH, never forced LOW), and the watcher is not
cancelled.
-/
theorem C3_counterexample_error_unobserved :
    (ring_until_answered 1 (some 1) 1).result = SessionResult.answered
    ∧ (ring_until_answered 1 (some 1) 1).writes = [(0, true)]
    ∧ (ring_until_answered 1 (some 1) 1).watcherCancelled = false := by
  refine ⟨rfl, ?_, rfl⟩
  have hw : (ring_until_answered 1 (some 1) 1).writes
      = ((ring_forever 1 0).filter (fun w => w.1 ≤ 1)).take 1 :=
    run_writes_some 1 (ring_forever 1 0) 1 0 (ring_forever_sorted 1 0) (by omega)
  rw [hw, ring_forever_closed]
  norm_num [List.range_succ]

/--
C3 as amended: if the write attempt of index kf raises a hardware error, the
exception silently kills the burst-toggle task: the session performs exactly
the first kf writes of the cancellation-truncated schedule and nothing
after, so ringing is not retried, but the error does not propagate to the
session owner (ring_until_answered still returns a normal answered result
when the watcher resolves), no LOW write is forced after the failure, and
the watcher task is not cancelled.
-/
theorem C3_amended_write_failure_is_silent (T : ℚ) (kf c : ℕ) :
    (ring_until_answered T (some kf) c).writes
        = ((ring_forever c 0).filter (fun w => w.1 ≤ T)).take kf
    ∧ (ring_until_answered T (some kf) c).result = SessionResult.answered
    ∧ (ring_until_answered T (some kf) c).watcherCancelled = false := by
  refine ⟨?_, rfl, rfl⟩
  have h := run_writes_some T (ring_forever c 0) kf 0 (ring_forever_sorted c 0) (by omega)
  simpa using h

/--
C4: a single sample that does not match the target level resets the
accumulated hold time to zero, so the detector never resolves on a hold that
includes matching samples observed before an interruption.  Formally, if a
run resolves at read index i, then the returned value is the target level,
the final ceil(debounce/poll) + 1 reads (indices i - ceil(debounce/poll)
through i) all match the target level, and every mismatched read lies
strictly before that window: the resolution rests only on the consecutive
matches that follow the last interruption.
-/
theorem C4_debounce_stability (p d : ℚ) (e r : Bool) (s : ℕ → Bool) (fuel i : ℕ) (v : Bool)
    (hp : 0 < p)
    (hres : (event_detector p d e r s fuel 0 0).1 = some (i, v)) :
    v = e ∧ ⌈d / p⌉₊ ≤ i
      ∧ (∀ k, i - ⌈d / p⌉₊ ≤ k → k ≤ i → s k = e)
      ∧ (∀ j, j < i → s j ≠ e → j + ⌈d / p⌉₊ < i) := by
  have h := event_detector_window p d e r s hp fuel 0 0 0 (by norm_num) (by omega)
    (by omega) i v hres
  obtain ⟨h1, h2, h3⟩ := h
  refine ⟨h1, h2, h3, ?_⟩
  intro j hj hne
  by_contra hcon
  push_neg at hcon
  exact hne (h3 j (by omega) (by omega))

/-- Witness for C4 at the default configuration: the trace that is LOW at
read 0 and HIGH from read 1 on resolves at read 5 with value HIGH. -/
theorem C4_debounce_stability_witness :
    (0 : ℚ) < 1/5
    ∧ (event_detector (1/5) (4/5) true false (fun i => decide (1 ≤ i)) 10 0 0).1
        = some (5, true)
    ∧ (true = true ∧ ⌈(4/5 : ℚ) / (1/5)⌉₊ ≤ 5
        ∧ (∀ k, 5 - ⌈(4/5 : ℚ) / (1/5)⌉₊ ≤ k → k ≤ 5 → (fun i : ℕ => decide (1 ≤ i)) k = true)
        ∧ (∀ j, j < 5 → (fun i : ℕ => decide (1 ≤ i)) j ≠ true → j + ⌈(4/5 : ℚ) / (1/5)⌉₊ < 5)) :=
  ⟨by norm_num, by norm_num [event_detector],
   C4_debounce_stability (1/5) (4/5) true false (fun i => decide (1 ≤ i)) 10 5 true
     (by norm_num) (by norm_num [event_detector])⟩

/--
C5: for the fixed configuration of the source (toggle interval 0.05 s,
burst duration 1.6 s), the write schedule of an uninterrupted ring session
is the deterministic repeating pattern: cycle i consists of 32 writes at
times 16/5 * i + j/20 for j = 0, ..., 31, alternating HIGH at even j and
LOW at odd j (so the burst spans 1.6 s), followed by silence until cycle
i + 1 starts at 16/5 * (i + 1), i.e. a pause equal to the burst duration,
repeating for as long as the session runs.
-/
theorem C5_ring_cadence (c : ℕ) :
    ring_forever c 0 = (List.range c).flatMap (fun i : ℕ =>
      (List.range 32).map (fun j : ℕ =>
        ((16/5) * (i : ℚ) + (j : ℚ) * (1/20), decide (j % 2 = 0)))) := by
  rw [ring_forever_closed c 0]
  apply flatMap_congr_left
  intro i _
  apply List.map_congr_left
  intro j _
  norm_num

/--
C6: a detector created with reusable = true never calls
GPIO.remove_event_detect, in any state of its loop, and awaiting it again
from any read position j is the same as running a fresh, independent
debounce cycle from zero accumulated hold time on the remaining samples; a
detector created with reusable = false that resolves at read index i calls
GPIO.remove_event_detect exactly once, at that resolution index, and makes
no such call as long as it has not resolved.
-/
theorem C6_reusability (p d : ℚ) (e : Bool) (s : ℕ → Bool) :
    (∀ (fuel : ℕ) (timer : ℚ) (i : ℕ), (event_detector p d e true s fuel timer i).2 = [])
    ∧ (∀ (fuel j : ℕ),
        event_detector p d e true s fuel 0 j
          = (((event_detector p d e true (fun k => s (k + j)) fuel 0 0).1).map
               (fun q => (q.1 + j, q.2)),
             ((event_detector p d e true (fun k => s (k + j)) fuel 0 0).2).map
               (fun q => q + j)))
    ∧ (∀ (fuel i : ℕ) (v : Bool),
        (event_detector p d e false s fuel 0 0).1 = some (i, v) →
          (event_detector p d e false s fuel 0 0).2 = [i])
    ∧ (∀ fuel : ℕ,
        (event_detector p d e false s fuel 0 0).1 = none →
          (event_detector p d e false s fuel 0 0).2 = []) :=
  ⟨fun fuel timer i => event_detector_dereg_true p d e s fuel timer i,
   fun fuel j => event_detector_shift p d e true fuel s 0 j,
   fun fuel i v hres => (event_detector_dereg_false p d e s fuel 0 0).2 i v hres,
   fun fuel hres => (event_detector_dereg_false p d e s fuel 0 0).1 hres⟩

/-- Witness for C6: a reusable run deregisters nothing; a non-reusable run
that resolves at read 0 deregisters exactly once, at read 0. -/
theorem C6_reusability_witness :
    ((event_detector (1/5) 0 true true (fun _ => true) 2 0 0).2 = [])
    ∧ ((event_detector (1/5) 0 true false (fun _ => true) 2 0 0).1 = some (0, true))
    ∧ ((event_detector (1/5) 0 true false (fun _ => true) 2 0 0).2 = [0]) :=
  ⟨(C6_reusability (1/5) 0 true (fun _ => true)).1 2 0 0,
   by norm_num [event_detector],
   (C6_reusability (1/5) 0 true (fun _ => true)).2.2.1 2 0 true (by norm_num [event_detector])⟩

/--
C7: with debounce duration 0, the detector resolves at the first read that
matches the target level (the timer check 0 < 0 fails at once), and the
resolved value is the configured target level.
-/
theorem C7_zero_debounce_immediate (p : ℚ) (e r : Bool) (s : ℕ → Bool) (fuel j : ℕ)
    (hpre : ∀ k, k < j → s k ≠ e) (hj : s j = e) (hfuel : j < fuel) :
    (event_detector p 0 e r s fuel 0 0).1 = some (j, e) :=
  event_detector_first_match p e r s fuel 0 j (by omega)
    (fun k _ hk2 => hpre k hk2) hj (by omega)

/-- Witness for C7: with debounce 0 and a pin that first matches at read 2,
the detector resolves at read 2 returning the target level. -/
theorem C7_zero_debounce_immediate_witness :
    (∀ k, k < 2 → (fun i : ℕ => decide (2 ≤ i)) k ≠ true)
    ∧ (fun i : ℕ => decide (2 ≤ i)) 2 = true
    ∧ 2 < 4
    ∧ (event_detector (1/5) 0 true false (fun i => decide (2 ≤ i)) 4 0 0).1 = some (2, true) :=
  ⟨by decide, by decide, by decide,
   C7_zero_debounce_immediate (1/5) true false (fun i => decide (2 ≤ i)) 4 2
     (by decide) (by decide) (by decide)⟩

/--
C8 counterexample: the claim states that for configurations where the
debounce duration is not an exact multiple of the poll interval, the
detector resolves after exactly ceil(debounce / poll) consecutive matching
samples.  Take poll 0.2 s and debounce 0.5 s, which is not an exact
multiple: 0.5 lies strictly between 2 * 0.2 and 3 * 0.2 (the first two
conjuncts), and ceil(debounce / poll) = 3.  On the trace that matches at
reads 0, 1, 2 (exactly 3 consecutive matching samples) and mismatches from
read 3 on, the detector does not resolve at all: the read that triggers
resolution must itself still match, so ceil(debounce / poll) + 1
consecutive matching reads are required.
-/
theorem C8_counterexample_ceil_not_enough :
    (2 : ℚ) * (1/5) < 1/2
    ∧ (1/2 : ℚ) < 3 * (1/5)
    ∧ ⌈(1/2 : ℚ) / (1/5)⌉₊ = 3
    ∧ (fun i : ℕ => decide (i < 3)) 0 = true
    ∧ (fun i : ℕ => decide (i < 3)) 1 = true
    ∧ (fun i : ℕ => decide (i < 3)) 2 = true
    ∧ (fun i : ℕ => decide (i < 3)) 3 = false
    ∧ (event_detector (1/5) (1/2) true false (fun i => decide (i < 3)) 20 0 0).1 = none := by
  have hc : ⌈(1/2 : ℚ) / (1/5)⌉₊ = 3 := by
    rw [show (1/2 : ℚ) / (1/5 : ℚ) = 5/2 from by norm_num]
    rw [Nat.ceil_eq_iff (by norm_num)]
    norm_num
  exact ⟨by norm_num, by norm_num, hc, by norm_num, by norm_num, by norm_num, by norm_num,
    by norm_num [event_detector]⟩

/--
C8 as amended: for every configuration whose debounce duration d is not an
exact multiple of the poll interval p (with p > 0), the detector tolerates
the mismatch by rounding the required elapsed count upward, and on a
constantly matching pin resolves at read index ceil(d / p), i.e. on its
(ceil(d / p) + 1)-th consecutive matching sample rather than after
ceil(d / p) matching samples: ceil(d / p) matching reads advance the timer,
and one further matching read observes that the timer has reached d and
resolves.
-/
theorem C8_amended_ceil_plus_one (p d : ℚ) (e r : Bool) (fuel : ℕ)
    (hp : 0 < p) (hnm : ∀ n : ℕ, d ≠ (n : ℚ) * p) (hfuel : ⌈d / p⌉₊ < fuel) :
    (event_detector p d e r (fun _ => e) fuel 0 0).1 = some (⌈d / p⌉₊, e) := by
  have h := event_detector_const p d e r hp fuel 0 (by omega) (by omega)
  simpa using h

/-- Witness for C8 at a non-multiple configuration: poll 0.2 s and debounce
0.5 s (strictly between 2 and 3 poll intervals, so not an exact multiple)
give ceil(0.5 / 0.2) = 3, and the detector on a constantly HIGH pin
resolves at read index 3, its fourth matching sample. -/
theorem C8_amended_ceil_plus_one_witness :
    (0 : ℚ) < 1/5
    ∧ (2 : ℚ) * (1/5) < 1/2
    ∧ (1/2 : ℚ) < 3 * (1/5)
    ∧ ⌈(1/2 : ℚ) / (1/5)⌉₊ = 3
    ∧ ⌈(1/2 : ℚ) / (1/5)⌉₊ < 5
    ∧ (event_detector (1/5) (1/2) true false (fun _ => true) 5 0 0).1
        = some (⌈(1/2 : ℚ) / (1/5)⌉₊, true) := by
  have hc : ⌈(1/2 : ℚ) / (1/5)⌉₊ = 3 := by
    rw [show (1/2 : ℚ) / (1/5 : ℚ) = 5/2 from by norm_num]
    rw [Nat.ceil_eq_iff (by norm_num)]
    norm_num
  have hnm : ∀ n : ℕ, (1/2 : ℚ) ≠ (n : ℚ) * (1/5) := by
    intro n h
    have h2 : (2 * n : ℚ) = 5 := by linarith
    have h5 : 2 * n = 5 := by exact_mod_cast h2
    omega
  exact ⟨by norm_num, by norm_num, by norm_num, hc, by omega,
    C8_amended_ceil_plus_one (1/5) (1/2) true false 5 (by norm_num) hnm (by omega)⟩

/--
C9: every burst that runs to completion writes the ringer pin in whole
HIGH-then-LOW pairs (16 of them for the fixed configuration) and its final
write is LOW, so the pin stays LOW for the entire pause that follows the
burst; the loop writes both halves of a pair before re-checking its guard,
so a completed burst is never cut between a HIGH write and its paired LOW.
-/
theorem C9_burst_whole_pairs (t : ℚ) :
    ((ring_once 0 t).1.map Prod.snd) = List.flatten (List.replicate 16 [true, false])
    ∧ (((ring_once 0 t).1.map Prod.snd)).getLast? = some false := by
  constructor
  · rw [ring_once_zero, List.map_map]
    rw [show (Prod.snd ∘ fun j : ℕ => (t + (j : ℚ) * (1/20), decide (j % 2 = 0)))
        = fun j : ℕ => decide (j % 2 = 0) from rfl]
    decide
  · rw [ring_once_zero, List.map_map]
    rw [show (Prod.snd ∘ fun j : ℕ => (t + (j : ℚ) * (1/20), decide (j % 2 = 0)))
        = fun j : ℕ => decide (j % 2 = 0) from rfl]
    decide

/--
C10: every invocation of the function returned by get_gpio_event_detector is
a fresh coroutine whose accumulated hold time starts at zero, so re-awaiting
the same detector function, for any reusable flag, from any read position j
behaves exactly like a complete, independent poll and debounce cycle run
from scratch on the remaining sample stream, with read indices and
deregistration records shifted by j; in particular no state survives from
one invocation to the next and re-invocation is well defined rather than an
error.
-/
theorem C10_each_call_runs_fresh (p d : ℚ) (e r : Bool) (s : ℕ → Bool) (fuel j : ℕ) :
    event_detector p d e r s fuel 0 j
      = (((event_detector p d e r (fun k => s (k + j)) fuel 0 0).1).map
           (fun q => (q.1 + j, q.2)),
         ((event_detector p d e r (fun k => s (k + j)) fuel 0 0).2).map
           (fun q => q + j)) :=
  event_detector_shift p d e r fuel s 0 j

end Phonehack
